import Mathlib

/-!
# Verification of the apimock mock-server core

A shallow embedding of the core logic of `apimock` (`main.go`, v1.1.1): the
wildcard path matcher `findBestMockFile`, the placeholder expander
`replacePathParams`, and the response synthesis performed by `mockHandler`
after a mock file has been matched.

Modelling conventions:
* Go strings are modelled as Lean `String`, manipulated through their
  underlying `List Char` (`.data`); the Go code works on bytes, which agrees
  with the character model on all inputs relevant here.
* `strings.Split(s, "/")` is modelled by `splitPath` (see `goSplit`), which
  replicates Go's semantics including `Split("", "/") = [""]`.
* Machine integers are modelled as `Int`/`Nat`; no arithmetic in the mock
  server can overflow on realistic inputs, and where Go would overflow
  (`strconv.Atoi` on a huge index) the observable behaviour coincides with
  the unbounded model (the token is left unmodified either way).
* Stateful serving code is modelled as pure functions from the request data
  (method, path parameters, file bytes, parse outcome) to an `HttpResponse`
  value that records the status, the headers set after the CORS preamble,
  the body bytes written, and the milliseconds slept.
-/

namespace Apimock

/-! ## String helpers (models of the Go standard-library calls used) -/

/-- Characters written via their code points so that no brace appears in the
source text: `lbrace` is the character U+007B. -/
def lbrace : Char := Char.ofNat 123

/-- The character U+007D. -/
def rbrace : Char := Char.ofNat 125

/-- Model of Go `strings.Split(·, sep)` for a one-character separator, on
character lists.  `goSplit sep [] = [[]]`, matching Go's `Split("", "/") = [""]`. -/
def goSplit (sep : Char) : List Char → List (List Char)
  | [] => [[]]
  | c :: rest =>
      match goSplit sep rest with
      | [] => [[]]
      | grp :: gs => if c = sep then [] :: grp :: gs else (c :: grp) :: gs

/-- Model of `strings.Split(s, "/")`. -/
def splitPath (s : String) : List String :=
  (goSplit '/' s.data).map String.mk

/-- Model of Go `strings.Join(xs, sep)`. -/
def goJoin (sep : String) : List String → String
  | [] => ""
  | [x] => x
  | x :: xs => x ++ sep ++ goJoin sep xs

/-- Model of Go `strings.TrimSuffix(s, suf)`: drop `suf` from the end of `s`
when it is a suffix, otherwise return `s` unchanged. -/
def trimOneEnd (s suf : String) : String :=
  if suf.data <:+ s.data then String.mk (s.data.take (s.data.length - suf.data.length)) else s

/-- Model of Go `strings.HasSuffix`. -/
def strEndsWith (s suf : String) : Bool := decide (suf.data <:+ s.data)

/-- The element-processing loop of Go's lexical path cleaning
(`filepath.Clean`), at the segment level, for a path relative to the walk's
base directory: empty and `"."` elements are dropped (this covers trailing
slashes and doubled slashes), and a `".."` element removes the preceding
element when one exists and is not itself `".."`, and is kept otherwise (a
kept `".."` makes `filepath.Rel` ascend above the base, which is also what
joining the kept `".."` produces).  The first argument is the output stack
in reverse order. -/
def cleanSegsAux : List String → List String → List String
  | stack, [] => stack.reverse
  | stack, s :: rest =>
      if s = "" ∨ s = "." then cleanSegsAux stack rest
      else if s = ".." then
        match stack with
        | [] => cleanSegsAux [".."] rest
        | top :: stack' =>
            if top = ".." then cleanSegsAux (".." :: top :: stack') rest
            else cleanSegsAux stack' rest
      else cleanSegsAux (s :: stack) rest

/-- Lexical cleaning of a relative path's segment list. -/
def cleanSegs (segs : List String) : List String := cleanSegsAux [] segs

/-- Model of `filepath.Rel(base, target)` restricted to its use in the walk
of `findBestMockFile`: the target is the base directory itself (which
relativizes to `"."`) or a path below it, and the base is a cleaned
directory path (as the configured mock directory is after
`filepath.WalkDir`/`filepath.Join` normalization).  `Rel` cleans the target
first, so the remainder below the base is cleaned segment-wise
(`cleanSegs`); when every element cancels the result is `"."`.  A `".."`
remainder that would ascend past an absolute filesystem root is not
modelled — no walk target produces one. -/
def relTo (base target : String) : String :=
  if target = base then "."
  else if (base.data ++ ['/']) <+: target.data then
    let cleaned := cleanSegs (splitPath (String.mk (target.data.drop (base.data.length + 1))))
    if cleaned = [] then "." else goJoin "/" cleaned
  else target

/-! ## Path matcher (`findBestMockFile`) -/

/-- The per-position matching loop of `findBestMockFile`: walk the template
segments (`mockParts`) and the request segments in lockstep.  A `"_"`
template segment matches any non-empty request segment and captures it; any
other template segment must equal the request segment exactly.  Returns the
captured parameters in order together with the number of wildcard segments
used (`underscoreCount`), or `none` when some position fails. -/
def matchParts : List String → List String → Option (List String × Nat)
  | [], [] => some ([], 0)
  | m :: ms, r :: rs =>
      if m = "_" then
        if r = "" then none
        else
          match matchParts ms rs with
          | some (ps, c) => some (r :: ps, c + 1)
          | none => none
      else if m = r then matchParts ms rs
      else none
  | _, _ => none

/-- Route-template derivation from a candidate file's full path, exactly as
in the walk callback: trim the `.json` suffix, trim a trailing `/index`,
relativize against the base directory, split on `/`. -/
def templateOf (baseDir path : String) : List String :=
  let rel1 := trimOneEnd path ".json"
  let rel2 := if strEndsWith rel1 "/index" then trimOneEnd rel1 "/index" else rel1
  splitPath (relTo baseDir rel2)

/-- One candidate file of the walk: `none` when the callback ignores it (not
a `.json` file, wrong segment count, or a failed structural match),
`some (score, params)` when it structurally matches, where
`score = len(requestParts) - underscoreCount`. -/
def evalCandidate (baseDir : String) (reqParts : List String) (path : String) : Option (Int × List String) :=
  if strEndsWith path ".json" = false then none
  else if (templateOf baseDir path).length ≠ reqParts.length then none
  else
    match matchParts (templateOf baseDir path) reqParts with
    | some (params, cnt) => some (((reqParts.length : Int) - (cnt : Int), params))
    | none => none

/-- The accumulator threaded through the walk: `bestMatch`, `bestParams` and
`bestScore` of `findBestMockFile`, initialised to `("", [], -1)`. -/
structure WalkAcc where
  bestMatch : String
  bestParams : List String
  bestScore : Int
deriving DecidableEq, Repr

/-- The body of the walk callback for one visited file: keep the accumulator
unless the candidate structurally matches with a score strictly greater than
the current best. -/
def processPath (baseDir : String) (reqParts : List String) (acc : WalkAcc) (path : String) : WalkAcc :=
  match evalCandidate baseDir reqParts path with
  | none => acc
  | some (score, params) =>
      if acc.bestScore < score then ⟨path, params, score⟩ else acc

/-- The function `findBestMockFile` over an explicit list of the file paths visited by an
error-free `filepath.WalkDir` traversal, in traversal order. -/
def findBestMockFile (baseDir : String) (files : List String) (requestPath : String) : String × List String :=
  let reqParts := splitPath requestPath
  let acc := files.foldl (processPath baseDir reqParts) ⟨"", [], -1⟩
  (acc.bestMatch, acc.bestParams)

/-- The candidate score seen by the selection logic: the score of a
structurally matching candidate, and `-1` (never competitive) otherwise. -/
def candScoreI (baseDir : String) (reqParts : List String) (path : String) : Int :=
  match evalCandidate baseDir reqParts path with
  | some sp => sp.fst
  | none => -1

/-! ## The filesystem walk (`filepath.WalkDir`) with traversal errors -/

/-- A directory tree as seen by `filepath.WalkDir`: files, and directories
whose contents may fail to be read (`readErr` models an `os.ReadDir` error,
which `WalkDir` reports through a second callback invocation on that
directory). -/
inductive FsTree where
  | file (name : String)
  | dir (name : String) (readErr : Bool) (entries : List FsTree)

mutual
/-- One step of the walk.  The callback in `findBestMockFile` returns `err`
when invoked with a non-nil error and `nil` on directories, so: a file
updates the accumulator via `processPath`; a directory whose read fails
makes the callback return that error, which `filepath.WalkDir` propagates,
terminating the entire walk (the `Bool` component records this abort);
otherwise the directory's entries are walked in order. -/
def walkEntry (baseDir : String) (reqParts : List String) (pfx : String) (t : FsTree) (acc : WalkAcc) : WalkAcc × Bool :=
  match t with
  | .file name => (processPath baseDir reqParts acc (pfx ++ "/" ++ name), false)
  | .dir _ true _ => (acc, true)
  | .dir name false es => walkEntries baseDir reqParts (pfx ++ "/" ++ name) es acc

/-- Walk a list of sibling entries in order, stopping the moment a walk
error is propagated. -/
def walkEntries (baseDir : String) (reqParts : List String) (pfx : String) (ts : List FsTree) (acc : WalkAcc) : WalkAcc × Bool :=
  match ts with
  | [] => (acc, false)
  | t :: rest =>
      match walkEntry baseDir reqParts pfx t acc with
      | (acc2, true) => (acc2, true)
      | (acc2, false) => walkEntries baseDir reqParts pfx rest acc2
end

/-- The function `findBestMockFile` over the directory tree itself, with traversal
errors: `rootErr` models a failure to stat or read the root directory
(which makes the callback return the error immediately).  Returns the best
match found before any abort, and whether the walk was aborted by a
traversal error (in the source the error is then logged once). -/
def findBestMockFileWalk (baseDir : String) (rootErr : Bool) (entries : List FsTree) (requestPath : String) : (String × List String) × Bool :=
  let reqParts := splitPath requestPath
  if rootErr then (("", []), true)
  else
    let acc := walkEntries baseDir reqParts baseDir entries ⟨"", [], -1⟩
    ((acc.fst.bestMatch, acc.fst.bestParams), acc.snd)

/-! ## Template expander (`replacePathParams`) -/

/-- The decimal value of a digit string, as computed by `strconv.Atoi` on a
string of ASCII digits.  (Go would return an overflow error above 2^63-1 and
leave the token unmodified; in the unbounded model such an index simply
exceeds every parameter-list length, with the same observable outcome.) -/
def digitsVal (ds : List Char) : Nat :=
  ds.foldl (fun n c => n * 10 + (c.toNat - 48)) 0

/-- The full text of a `\x7bpath.N\x7d` token whose digit part is `ds` —
what the regex `\{path\.(\d+)\}` matched, and what is returned unchanged
when the index is out of range. -/
def tokenChars (ds : List Char) : List Char :=
  lbrace :: 'p' :: 'a' :: 't' :: 'h' :: '.' :: (ds ++ [rbrace])

/-- Attempt to read `path.` followed by one or more digits and a closing
brace, at the position just after an opening brace; returns the digits and
the remaining input.  This is exactly where the anchored regex
`\{path\.(\d+)\}` matches: the digit run is maximal and must be terminated
by the closing brace. -/
def parseTokenRest (cs : List Char) : Option (List Char × List Char) :=
  match cs with
  | c1 :: c2 :: c3 :: c4 :: c5 :: rest =>
      if c1 = 'p' ∧ c2 = 'a' ∧ c3 = 't' ∧ c4 = 'h' ∧ c5 = '.' then
        match rest.dropWhile (fun c => c.isDigit) with
        | r :: tail =>
            if rest.takeWhile (fun c => c.isDigit) = [] then none
            else if r = rbrace then some (rest.takeWhile (fun c => c.isDigit), tail) else none
        | [] => none
      else none
  | _ => none

/-- The scanning loop of `regexp.ReplaceAllStringFunc` specialised to the
pattern `\{path\.(\d+)\}` and the replacement function of
`replacePathParams`: at each opening brace try to match the token; on a
match emit `params[idx]` when the index is in range and the token text
itself otherwise, then continue after the token; on no match emit the
character and continue. -/
def replaceChars (params : List String) : List Char → List Char
  | [] => []
  | c :: rest =>
      if c = lbrace then
        match h : parseTokenRest rest with
        | some (ds, tail) =>
            (if digitsVal ds < params.length then (params.getD (digitsVal ds) "").data
             else tokenChars ds) ++ replaceChars params tail
        | none => c :: replaceChars params rest
      else c :: replaceChars params rest
termination_by cs => cs.length
decreasing_by
  · have hlt : tail.length < rest.length := by
      unfold parseTokenRest at h
      split at h
      next d1 d2 d3 d4 d5 drest =>
        split at h
        next =>
          split at h
          next r tl heq =>
            split at h
            next => simp at h
            next =>
              split at h
              next =>
                simp only [Option.some.injEq, Prod.mk.injEq] at h
                obtain ⟨-, rfl⟩ := h
                have h1 : (drest.dropWhile (fun c => c.isDigit)).length ≤ drest.length :=
                  (List.dropWhile_sublist _).length_le
                rw [heq] at h1
                simp only [List.length_cons] at h1
                simp only [List.length_cons, List.length_cons, List.length_cons, List.length_cons,
                  List.length_cons]
                omega
              next => simp at h
          next => simp at h
        next => simp at h
      next => simp at h
    simp
    omega
  · simp
  · simp

/-- The function `replacePathParams`, with the request's captured path parameters passed
explicitly (the source reads them from the per-request global
`currentPathParams`). -/
def replacePathParams (params : List String) (s : String) : String :=
  String.mk (replaceChars params s.data)

/-- Whether some position of `cs` starts a syntactically valid
`\x7bpath.N\x7d` token. -/
def containsToken : List Char → Bool
  | [] => false
  | c :: rest => (c = lbrace && (parseTokenRest rest).isSome) || containsToken rest

/-! ## Response synthesis (`mockHandler` after a file has been matched) -/

/-- The `MockResponse` struct: the descriptor schema of a mock file.  `body`
holds the raw JSON text of the `body` field (`json.RawMessage`); the empty
string models an absent/nil body. -/
structure MockResponse where
  method : List String
  status : Int
  delay : Int
  headers : List (String × String)
  body : String
deriving DecidableEq, Repr

/-- The observable outcome of one handler invocation, from the point after
the CORS preamble: the status code written, the headers set (in order),
the body bytes written, and the milliseconds slept. -/
structure HttpResponse where
  status : Int
  headers : List (String × String)
  body : String
  sleptMillis : Int
deriving DecidableEq, Repr

/-- The method-check loop: scan `methods` and report whether the request
method is a member. -/
def methodAllowed : List String → String → Bool
  | [], _ => false
  | x :: rest, m => if x = m then true else methodAllowed rest m

/-- The JSON error body produced by `respondJSON` for the 405 case:
`json.NewEncoder(w).Encode` of a `map[string]string` serializes the keys in
sorted order (`allow` before `error`) and appends a newline.  (Method names
are assumed to need no JSON string escaping.) -/
def methodNotAllowedBody (allow : String) : String :=
  "\x7b\"allow\":\"" ++ allow ++ "\",\"error\":\"Method Not Allowed\"\x7d\n"

/-- A `respondJSON` response: status plus an already-encoded JSON body. -/
def respondJSON (status : Int) (bodyJSON : String) : HttpResponse :=
  ⟨status, [("Content-Type", "application/json; charset=utf-8")], bodyJSON, 0⟩

/-- The synthesis steps after the method check: delay, custom headers (each
value template-expanded), status defaulting, empty-body/204 handling, and
body expansion.  Go iterates the header map in unspecified order; the model
fixes the order as the field's list order, which is immaterial because
`Header().Set` keys are unique in the map. -/
def renderMock (params : List String) (mock : MockResponse) : HttpResponse :=
  let slept := if 0 < mock.delay then mock.delay else 0
  let hdrs := mock.headers.map (fun kv => (kv.fst, replacePathParams params kv.snd))
  let status := if mock.status = 0 then 200 else mock.status
  if mock.body = "" ∨ mock.body = "null" then
    ⟨if status = 200 then 204 else status, hdrs, "", slept⟩
  else
    ⟨status, hdrs ++ [("Content-Type", "application/json; charset=utf-8")],
     replacePathParams params mock.body, slept⟩

/-- The handler's treatment of the bytes of the matched file, given the
outcome of `json.Unmarshal` into `MockResponse`: on parse failure the raw
bytes are echoed with status 200 and content-type `application/json`;
on success the method check runs, then `renderMock`. -/
def serveMockData (method : String) (params : List String) (data : String)
    (parsed : Option MockResponse) : HttpResponse :=
  match parsed with
  | none => ⟨200, [("Content-Type", "application/json")], data, 0⟩
  | some mock =>
      if mock.method ≠ [] ∧ methodAllowed mock.method method = false then
        respondJSON 405 (methodNotAllowedBody (goJoin ", " mock.method))
      else renderMock params mock

/-- The handler from the moment a matched file path is opened: `os.Open`
failure yields a 500 error response; on success the bytes returned by
`io.ReadAll` are served — the source discards `io.ReadAll`'s error
(`data, _ := io.ReadAll(file)`), which the `Bool` in `opened` records.
`opened = none` models an `os.Open` error; `opened = some (data, e)` models
a successful open where `ReadAll` returned `data` and, when `e` is true, an
(ignored) read error. -/
def handleMockFile (method : String) (params : List String)
    (opened : Option (String × Bool)) (parse : String → Option MockResponse) : HttpResponse :=
  match opened with
  | none => respondJSON 500 "\x7b\"error\":\"Server Error\"\x7d\n"
  | some (data, _) => serveMockData method params data (parse data)

/-! ## A model of `json.Unmarshal` into `MockResponse`

`encoding/json` is an external collaborator (the Go standard library); the
handler only observes whether it succeeds and the struct it fills in.  The
model below follows its documented semantics on a JSON syntax tree: the
top-level value must be an object (or `null`); unknown object keys are
ignored; a known key whose value has the wrong type makes `Unmarshal`
return an error; `null` leaves a field at its zero value; for duplicate
keys the last occurrence wins.  JSON numbers are modelled as integers
(a fractional `status`/`delay` would also be an `Unmarshal` error). -/

/-- A JSON value. -/
inductive Json where
  | null
  | bool (b : Bool)
  | num (n : Int)
  | str (s : String)
  | arr (elems : List Json)
  | obj (fields : List (String × Json))

mutual
/-- Compact serialization of a JSON value, modelling the bytes a
`json.RawMessage` field captures for the `body` key.  (The real
`RawMessage` keeps the input bytes verbatim; the model uses the canonical
compact rendering and no string escaping, which agrees on the inputs the
claims exercise.) -/
def renderJson : Json → String
  | .null => "null"
  | .bool true => "true"
  | .bool false => "false"
  | .num n => toString n
  | .str s => "\"" ++ s ++ "\""
  | .arr es => "[" ++ renderJsonList es ++ "]"
  | .obj fs => "\x7b" ++ renderJsonFields fs ++ "\x7d"

/-- Comma-separated rendering of array elements. -/
def renderJsonList : List Json → String
  | [] => ""
  | [e] => renderJson e
  | e :: es => renderJson e ++ "," ++ renderJsonList es

/-- Comma-separated rendering of object fields. -/
def renderJsonFields : List (String × Json) → String
  | [] => ""
  | [(k, v)] => "\"" ++ k ++ "\":" ++ renderJson v
  | (k, v) :: fs => "\"" ++ k ++ "\":" ++ renderJson v ++ "," ++ renderJsonFields fs
end

/-- Duplicate object keys: the last occurrence wins, as in `encoding/json`. -/
def lookupLast (key : String) : List (String × Json) → Option Json
  | [] => none
  | (k, v) :: rest =>
      match lookupLast key rest with
      | some r => some r
      | none => if k = key then some v else none

/-- Decode a JSON value into `[]string` (`method` field): must be an array
of strings; `null` leaves the zero value; a `null` element leaves a zero
element. -/
def asStringsAux : List Json → Option (List String)
  | [] => some []
  | .str s :: rest => (asStringsAux rest).map (fun xs => s :: xs)
  | .null :: rest => (asStringsAux rest).map (fun xs => "" :: xs)
  | _ => none

/-- Decode the `method` field. -/
def asStringList : Json → Option (List String)
  | .null => some []
  | .arr es => asStringsAux es
  | _ => none

/-- Decode a JSON object into `map[string]string` (`headers` field). -/
def asHeadersAux : List (String × Json) → Option (List (String × String))
  | [] => some []
  | (k, .str v) :: rest => (asHeadersAux rest).map (fun xs => (k, v) :: xs)
  | (k, .null) :: rest => (asHeadersAux rest).map (fun xs => (k, "") :: xs)
  | _ => none

/-- Decode the `headers` field. -/
def asHeaderList : Json → Option (List (String × String))
  | .null => some []
  | .obj fs => asHeadersAux fs
  | _ => none

/-- Decode an optional integer field (`status`, `delay`). -/
def asIntField : Option Json → Option Int
  | none => some 0
  | some .null => some 0
  | some (.num n) => some n
  | some _ => none

/-- Model of `json.Unmarshal(data, &mock)` on the parsed syntax tree of `data`:
`none` models a non-nil error (the handler then falls back to raw
passthrough). -/
def unmarshalMock : Json → Option MockResponse
  | .null => some ⟨[], 0, 0, [], ""⟩
  | .obj fields => do
      let method ← match lookupLast "method" fields with
        | none => some []
        | some j => asStringList j
      let status ← asIntField (lookupLast "status" fields)
      let delay ← asIntField (lookupLast "delay" fields)
      let headers ← match lookupLast "headers" fields with
        | none => some []
        | some j => asHeaderList j
      let body := match lookupLast "body" fields with
        | none => ""
        | some j => renderJson j
      some ⟨method, status, delay, headers, body⟩
  | _ => none

/-! ## The template-derivation rule as the specification words it -/

/-- The route-template derivation exactly as the specification describes
it, on the file path relative to the root: strip the `.json` suffix, drop
the last segment when it equals `index`, split on `/`.  Used to compare the
specification's rule with the code's `templateOf`. -/
def specTemplateOf (relPath : String) : List String :=
  let r := trimOneEnd relPath ".json"
  let segs := splitPath r
  if segs.getLast? = some "index" then segs.dropLast else segs

/-! ## The matching rule: characterization of `matchParts` -/

/-- The captured parameters, described declaratively: the request segments
standing at wildcard positions, in template order. -/
def capturedParams (tmpl req : List String) : List String :=
  (tmpl.zip req).filterMap (fun pair => if pair.fst = "_" then some pair.snd else none)

/-- Characterization of the matching loop: it succeeds exactly when the
segment counts agree and every position pairs a wildcard with a non-empty
request segment or a literal with an equal request segment; the captured
parameters are the wildcard-position request segments in template order and
the wildcard count is the number of `"_"` segments of the template. -/
theorem matchParts_characterization (tmpl req ps : List String) (c : Nat) :
    matchParts tmpl req = some (ps, c) ↔
      (tmpl.length = req.length ∧
       (∀ pair ∈ tmpl.zip req, (pair.fst = "_" → pair.snd ≠ "") ∧ (pair.fst ≠ "_" → pair.fst = pair.snd)) ∧
       ps = capturedParams tmpl req ∧
       c = tmpl.count "_") := by
  induction tmpl generalizing req ps c with
  | nil =>
      cases req with
      | nil => simp [matchParts, capturedParams, eq_comm]
      | cons r rs => simp [matchParts]
  | cons m ms ih =>
      cases req with
      | nil => simp [matchParts]
      | cons r rs =>
          by_cases hm : m = "_"
          · subst hm
            by_cases hr : r = ""
            · subst hr
              simp only [matchParts, if_pos rfl]
              constructor
              · intro h; simp at h
              · rintro ⟨-, hall, -, -⟩
                have := (hall ("_", "") (by rw [List.zip_cons_cons]; exact List.mem_cons_self _ _)).1 rfl
                simp at this
            · simp only [matchParts, if_pos rfl, if_neg hr]
              constructor
              · intro h
                rcases hmp : matchParts ms rs with _ | ⟨ps', c'⟩
                · rw [hmp] at h; simp at h
                · rw [hmp] at h
                  simp only [Option.some.injEq, Prod.mk.injEq] at h
                  obtain ⟨rfl, rfl⟩ := h
                  obtain ⟨hlen, hall, hps', hc'⟩ := (ih rs ps' c').mp hmp
                  refine ⟨by simp [hlen], ?_, ?_, ?_⟩
                  · intro pair hpair
                    rw [List.zip_cons_cons] at hpair
                    rcases List.mem_cons.mp hpair with hhd | htl
                    · subst hhd; exact ⟨fun _ => hr, fun hne => absurd rfl hne⟩
                    · exact hall pair htl
                  · simp [capturedParams, List.zip_cons_cons, List.filterMap_cons, hps']
                  · simp [List.count_cons, hc']
              · rintro ⟨hlen, hall, hps, hc⟩
                have hrec : matchParts ms rs = some (capturedParams ms rs, ms.count "_") := by
                  refine (ih rs _ _).mpr ⟨by simpa using hlen, ?_, rfl, rfl⟩
                  intro pair hpair
                  exact hall pair (by rw [List.zip_cons_cons]; exact List.mem_cons_of_mem _ hpair)
                rw [hrec]
                have hps2 : ps = r :: capturedParams ms rs := by
                  simpa [capturedParams, List.zip_cons_cons, List.filterMap_cons] using hps
                have hc2 : c = ms.count "_" + 1 := by
                  simpa [List.count_cons] using hc
                simp [hps2, hc2]
          · simp only [matchParts, if_neg hm]
            by_cases hmr : m = r
            · rw [if_pos hmr]
              rw [ih rs ps c]
              constructor
              · rintro ⟨hlen, hall, hps, hc⟩
                refine ⟨by simp [hlen], ?_, ?_, ?_⟩
                · intro pair hpair
                  rw [List.zip_cons_cons] at hpair
                  rcases List.mem_cons.mp hpair with hhd | htl
                  · subst hhd; exact ⟨fun h => absurd h hm, fun _ => hmr⟩
                  · exact hall pair htl
                · simpa [capturedParams, List.zip_cons_cons, List.filterMap_cons, hm] using hps
                · simpa [List.count_cons, hm] using hc
              · rintro ⟨hlen, hall, hps, hc⟩
                refine ⟨by simpa using hlen, ?_, ?_, ?_⟩
                · intro pair hpair
                  exact hall pair (by rw [List.zip_cons_cons]; exact List.mem_cons_of_mem _ hpair)
                · simpa [capturedParams, List.zip_cons_cons, List.filterMap_cons, hm] using hps
                · simpa [List.count_cons, hm] using hc
            · rw [if_neg hmr]
              constructor
              · intro h; simp at h
              · rintro ⟨-, hall, -, -⟩
                exact absurd ((hall (m, r) (by rw [List.zip_cons_cons]; exact List.mem_cons_self _ _)).2 hm) hmr

/-! ## Selection: the walk keeps the first candidate of strictly highest score -/

theorem evalCandidate_some_elim {base : String} {req : List String} {f : String} {s : Int} {ps : List String}
    (h : evalCandidate base req f = some (s, ps)) :
    (templateOf base f).length = req.length ∧
      matchParts (templateOf base f) req = some (ps, (templateOf base f).count "_") ∧
      s = (req.length : Int) - (((templateOf base f).count "_" : Nat) : Int) := by
  unfold evalCandidate at h
  split at h
  next => simp at h
  next =>
    split at h
    next => simp at h
    next hlen =>
      split at h
      next params cnt hmp =>
        simp only [Option.some.injEq, Prod.mk.injEq] at h
        obtain ⟨rfl, rfl⟩ := h
        obtain ⟨hl, -, -, hc⟩ := (matchParts_characterization (templateOf base f) req params cnt).mp hmp
        subst hc
        exact ⟨hl, hmp, rfl⟩
      next => simp at h

theorem candScoreI_eq_of_some {base : String} {req : List String} {f : String} {s : Int} {ps : List String}
    (h : evalCandidate base req f = some (s, ps)) : candScoreI base req f = s := by
  unfold candScoreI
  rw [h]

theorem score_nonneg_of_some {base : String} {req : List String} {f : String} {s : Int} {ps : List String}
    (h : evalCandidate base req f = some (s, ps)) : 0 ≤ s := by
  obtain ⟨hl, hmp, hs⟩ := evalCandidate_some_elim h
  have hcle : (templateOf base f).count "_" ≤ (templateOf base f).length :=
    List.count_le_length _ _
  rw [hl] at hcle
  omega

theorem processPath_of_none {base : String} {req : List String} {f : String} {acc : WalkAcc}
    (h : evalCandidate base req f = none) : processPath base req acc f = acc := by
  unfold processPath
  rw [h]

theorem processPath_of_some {base : String} {req : List String} {f : String} {s : Int}
    {ps : List String} {acc : WalkAcc} (h : evalCandidate base req f = some (s, ps)) :
    processPath base req acc f = if acc.bestScore < s then ⟨f, ps, s⟩ else acc := by
  unfold processPath
  rw [h]

theorem processPath_of_le {base : String} {req : List String} {f : String} {acc : WalkAcc}
    (h : candScoreI base req f ≤ acc.bestScore) : processPath base req acc f = acc := by
  cases heval : evalCandidate base req f with
  | none => exact processPath_of_none heval
  | some sp =>
      obtain ⟨s1, ps1⟩ := sp
      rw [processPath_of_some heval]
      rw [candScoreI_eq_of_some heval] at h
      rw [if_neg (by omega)]

theorem foldl_processPath_stable {base : String} {req : List String} :
    ∀ (fs : List String) (acc : WalkAcc),
      (∀ f ∈ fs, candScoreI base req f ≤ acc.bestScore) →
      fs.foldl (processPath base req) acc = acc := by
  intro fs
  induction fs with
  | nil => intro acc _; rfl
  | cons f fs ih =>
      intro acc hall
      rw [List.foldl_cons, processPath_of_le (hall f (List.mem_cons_self _ _))]
      exact ih acc (fun g hg => hall g (List.mem_cons_of_mem _ hg))

/-- The central selection lemma: starting from an accumulator with
`bestScore ≥ -1` that some candidate strictly beats, the fold ends at the
first candidate attaining the overall best score; everything before it
scores strictly lower and everything after it scores no higher. -/
theorem foldl_processPath_first_max {base : String} {req : List String} :
    ∀ (fs : List String) (acc : WalkAcc), -1 ≤ acc.bestScore →
      (∃ f ∈ fs, acc.bestScore < candScoreI base req f) →
      ∃ pre g post s ps,
        fs = pre ++ g :: post ∧
        evalCandidate base req g = some (s, ps) ∧
        acc.bestScore < s ∧
        fs.foldl (processPath base req) acc = ⟨g, ps, s⟩ ∧
        (∀ x ∈ pre, candScoreI base req x < s) ∧
        (∀ x ∈ post, candScoreI base req x ≤ s) := by
  intro fs
  induction fs with
  | nil =>
      rintro acc - ⟨f, hf, -⟩
      exact absurd hf (List.not_mem_nil f)
  | cons f fs ih =>
      rintro acc hinv hex
      by_cases hf : acc.bestScore < candScoreI base req f
      · cases heval : evalCandidate base req f with
        | none =>
            exfalso
            have hneg : candScoreI base req f = -1 := by
              unfold candScoreI
              rw [heval]
            omega
        | some sp =>
            obtain ⟨sf, pf⟩ := sp
            have hsf : candScoreI base req f = sf := candScoreI_eq_of_some heval
            rw [hsf] at hf
            have hstep : processPath base req acc f = ⟨f, pf, sf⟩ := by
              rw [processPath_of_some heval, if_pos hf]
            by_cases hex2 : ∃ x ∈ fs, sf < candScoreI base req x
            · obtain ⟨pre', g, post', s, ps, hfs, hg, hlt, hfold, hpre, hpost⟩ :=
                ih ⟨f, pf, sf⟩ (by
                  have := score_nonneg_of_some heval
                  simp
                  omega) hex2
              have hlt' : sf < s := by simpa using hlt
              refine ⟨f :: pre', g, post', s, ps, by rw [hfs, List.cons_append], hg, by omega, ?_, ?_, hpost⟩
              · rw [List.foldl_cons, hstep]
                exact hfold
              · intro x hx
                rcases List.mem_cons.mp hx with rfl | hx'
                · rw [hsf]; omega
                · exact hpre x hx'
            · push_neg at hex2
              refine ⟨[], f, fs, sf, pf, rfl, heval, hf, ?_, by simp, hex2⟩
              rw [List.foldl_cons, hstep]
              exact foldl_processPath_stable fs ⟨f, pf, sf⟩ (by simpa using hex2)
      · have hstep : processPath base req acc f = acc := processPath_of_le (by omega)
        have hex' : ∃ x ∈ fs, acc.bestScore < candScoreI base req x := by
          obtain ⟨x, hx, hlt⟩ := hex
          rcases List.mem_cons.mp hx with rfl | hx'
          · omega
          · exact ⟨x, hx', hlt⟩
        obtain ⟨pre', g, post', s, ps, hfs, hg, hlt, hfold, hpre, hpost⟩ := ih acc hinv hex'
        refine ⟨f :: pre', g, post', s, ps, by rw [hfs, List.cons_append], hg, hlt, ?_, ?_, hpost⟩
        · rw [List.foldl_cons, hstep]
          exact hfold
        · intro x hx
          rcases List.mem_cons.mp hx with rfl | hx'
          · omega
          · exact hpre x hx'

/-! ## The expander: unfolding equations and scanning lemmas -/

/-- The parser `parseTokenRest` succeeds exactly on inputs of the shape
`path.` ++ digits ++ closing brace ++ remainder, with a non-empty digit
run that is maximal (the next character is the closing brace). -/
theorem parseTokenRest_some_iff {cs ds tail : List Char} :
    parseTokenRest cs = some (ds, tail) ↔
      ds ≠ [] ∧ (∀ c ∈ ds, c.isDigit = true) ∧
        cs = 'p' :: 'a' :: 't' :: 'h' :: '.' :: (ds ++ rbrace :: tail) := by
  constructor
  · intro h
    unfold parseTokenRest at h
    split at h
    next c1 c2 c3 c4 c5 rest =>
      split at h
      next hc =>
        obtain ⟨rfl, rfl, rfl, rfl, rfl⟩ := hc
        split at h
        next r tl heq =>
          split at h
          next => simp at h
          next hds =>
            split at h
            next hr =>
              simp only [Option.some.injEq, Prod.mk.injEq] at h
              obtain ⟨hds', htl⟩ := h
              subst hds'; subst htl; subst hr
              refine ⟨hds, fun c hc => List.mem_takeWhile_imp hc, ?_⟩
              have hrest : rest = rest.takeWhile (fun c => c.isDigit) ++ rbrace :: tl := by
                conv_lhs => rw [← List.takeWhile_append_dropWhile (fun c => c.isDigit) rest]
                rw [heq]
              simpa using hrest
            next => simp at h
        next => simp at h
      next => simp at h
    next => simp at h
  · rintro ⟨hne, hdig, rfl⟩
    have hrb : rbrace.isDigit = false := by decide
    have hself : ds.takeWhile (fun c => c.isDigit) = ds :=
      List.takeWhile_eq_self_iff.mpr hdig
    have htw : (ds ++ rbrace :: tail).takeWhile (fun c => c.isDigit) = ds := by
      rw [List.takeWhile_append, hself, if_pos rfl, List.takeWhile_cons]
      simp [hrb]
    have hdw : (ds ++ rbrace :: tail).dropWhile (fun c => c.isDigit) = rbrace :: tail := by
      have h1 : ds.dropWhile (fun c => c.isDigit) = [] := by
        have hsplit := List.takeWhile_append_dropWhile (fun c => c.isDigit) ds
        rw [hself] at hsplit
        have hlen := congrArg List.length hsplit
        rw [List.length_append] at hlen
        have hz : (ds.dropWhile (fun c => c.isDigit)).length = 0 := by omega
        exact List.length_eq_zero.mp hz
      rw [List.dropWhile_append, h1]
      simp [List.dropWhile_cons, hrb]
    simp only [parseTokenRest]
    simp [htw, hdw, hne]


theorem option_eq_none_of_isSome_false {α : Type} {o : Option α} (h : o.isSome = false) :
    o = none := by
  cases o with
  | none => rfl
  | some v => simp at h

theorem replaceChars_nil (params : List String) : replaceChars params [] = [] := by
  rw [replaceChars]

theorem replaceChars_cons_of_ne (params : List String) (c : Char) (rest : List Char)
    (hc : ¬ c = lbrace) :
    replaceChars params (c :: rest) = c :: replaceChars params rest := by
  rw [replaceChars, if_neg hc]

theorem replaceChars_cons_none (params : List String) (rest : List Char)
    (hp : parseTokenRest rest = none) :
    replaceChars params (lbrace :: rest) = lbrace :: replaceChars params rest := by
  rw [replaceChars, if_pos rfl]
  split
  next ds tail hsome => rw [hp] at hsome; exact absurd hsome (by simp)
  next => rfl

theorem replaceChars_cons_some (params : List String) (rest ds tail : List Char)
    (hp : parseTokenRest rest = some (ds, tail)) :
    replaceChars params (lbrace :: rest) =
      (if digitsVal ds < params.length then (params.getD (digitsVal ds) "").data
       else tokenChars ds) ++ replaceChars params tail := by
  rw [replaceChars, if_pos rfl]
  split
  next ds' tail' hsome =>
    rw [hp] at hsome
    simp only [Option.some.injEq, Prod.mk.injEq] at hsome
    obtain ⟨rfl, rfl⟩ := hsome
    rfl
  next hnone => rw [hp] at hnone; exact absurd hnone (by simp)

theorem ne_lbrace_of_isDigit {c : Char} (h : c.isDigit = true) : ¬ c = lbrace := by
  intro heq
  subst heq
  exact absurd h (by decide)

/-- A failed token parse stays failed when the input is extended with a
block that is empty or starts with an opening brace: the extension cannot
supply the missing characters, because every character a successful parse
consumes is a letter of `path.`, a digit, or the closing brace — never an
opening brace. -/
theorem parseTokenRest_append_none {xs ys : List Char}
    (hxs : parseTokenRest xs = none) (hys : ys = [] ∨ ys.head? = some lbrace) :
    parseTokenRest (xs ++ ys) = none := by
  cases hp : parseTokenRest (xs ++ ys) with
  | none => rfl
  | some p =>
      exfalso
      obtain ⟨ds, tail⟩ := p
      obtain ⟨hne, hdig, heq⟩ := parseTokenRest_some_iff.mp hp
      have heq' : xs ++ ys = ('p' :: 'a' :: 't' :: 'h' :: '.' :: (ds ++ [rbrace])) ++ tail := by
        rw [heq]
        simp
      rcases List.append_eq_append_iff.mp heq' with ⟨mid, hfront, hys'⟩ | ⟨mid, hxs', -⟩
      · rcases mid with _ | ⟨h0, mid'⟩
        · rw [List.append_nil] at hfront
          have : parseTokenRest xs = some (ds, []) := by
            apply parseTokenRest_some_iff.mpr
            exact ⟨hne, hdig, by simp [hfront]⟩
          rw [hxs] at this
          exact absurd this (by simp)
        · have hhd : h0 = lbrace := by
            rcases hys with rfl | hhead
            · simp at hys'
            · rw [hys'] at hhead
              simpa using hhead
          subst hhd
          have hmem : lbrace ∈ 'p' :: 'a' :: 't' :: 'h' :: '.' :: (ds ++ [rbrace]) := by
            rw [hfront]
            exact List.mem_append_right _ (List.mem_cons_self _ _)
          simp only [List.mem_cons] at hmem
          rcases hmem with h | h | h | h | h | hrem
          · exact absurd h (by decide)
          · exact absurd h (by decide)
          · exact absurd h (by decide)
          · exact absurd h (by decide)
          · exact absurd h (by decide)
          · rcases List.mem_append.mp hrem with hin | hr
            · exact absurd rfl (ne_lbrace_of_isDigit (hdig lbrace hin))
            · exact absurd (List.mem_singleton.mp hr) (by decide)
      · have : parseTokenRest xs = some (ds, mid) := by
          apply parseTokenRest_some_iff.mpr
          refine ⟨hne, hdig, ?_⟩
          rw [hxs']
          simp
        rw [hxs] at this
        exact absurd this (by simp)

/-- Scanning is transparent on a token-free prefix when the continuation is
empty or starts with an opening brace. -/
theorem replaceChars_append_clean (params : List String) :
    ∀ (xs ys : List Char), containsToken xs = false → (ys = [] ∨ ys.head? = some lbrace) →
      replaceChars params (xs ++ ys) = xs ++ replaceChars params ys := by
  intro xs
  induction xs with
  | nil => intro ys _ _; simp
  | cons c rest ih =>
      intro ys hct hys
      rw [containsToken] at hct
      simp only [Bool.or_eq_false_iff, Bool.and_eq_false_iff] at hct
      obtain ⟨hhd, hrest⟩ := hct
      by_cases hc : c = lbrace
      · subst hc
        have hpn : parseTokenRest rest = none := by
          rcases hhd with h | h
          · simp at h
          · exact option_eq_none_of_isSome_false h
        have hpn2 : parseTokenRest (rest ++ ys) = none := parseTokenRest_append_none hpn hys
        rw [List.cons_append, replaceChars_cons_none _ _ hpn2, ih ys hrest hys, List.cons_append]
      · rw [List.cons_append, replaceChars_cons_of_ne _ _ _ hc, ih ys hrest hys, List.cons_append]

/-- A token-free character list is left unchanged by the scanner. -/
theorem replaceChars_id_of_no_token (params : List String) :
    ∀ cs : List Char, containsToken cs = false → replaceChars params cs = cs := by
  intro cs
  induction cs with
  | nil => intro _; exact replaceChars_nil params
  | cons c rest ih =>
      intro hct
      rw [containsToken] at hct
      simp only [Bool.or_eq_false_iff, Bool.and_eq_false_iff] at hct
      obtain ⟨hhd, hrest⟩ := hct
      by_cases hc : c = lbrace
      · subst hc
        have hpn : parseTokenRest rest = none := by
          rcases hhd with h | h
          · simp at h
          · exact option_eq_none_of_isSome_false h
        rw [replaceChars_cons_none _ _ hpn, ih hrest]
      · rw [replaceChars_cons_of_ne _ _ _ hc, ih hrest]

/-- A syntactically valid token at the head of the input is replaced (or
kept verbatim when the index is out of range) and scanning resumes after
it. -/
theorem replaceChars_token (params : List String) (ds cs : List Char)
    (hne : ds ≠ []) (hdig : ∀ c ∈ ds, c.isDigit = true) :
    replaceChars params (tokenChars ds ++ cs) =
      (if digitsVal ds < params.length then (params.getD (digitsVal ds) "").data
       else tokenChars ds) ++ replaceChars params cs := by
  have hp : parseTokenRest ('p' :: 'a' :: 't' :: 'h' :: '.' :: (ds ++ rbrace :: cs)) = some (ds, cs) :=
    parseTokenRest_some_iff.mpr ⟨hne, hdig, rfl⟩
  have hshape : tokenChars ds ++ cs = lbrace :: 'p' :: 'a' :: 't' :: 'h' :: '.' :: (ds ++ rbrace :: cs) := by
    simp [tokenChars]
  rw [hshape, replaceChars_cons_some _ _ _ _ hp]

/-! ## Template derivation: string-level lemmas -/

theorem string_ext_data {s t : String} (h : s.data = t.data) : s = t :=
  congrArg String.mk h

theorem trimOneEnd_of_data_eq {s suf : String} {X : List Char} (h : s.data = X ++ suf.data) :
    (trimOneEnd s suf).data = X := by
  unfold trimOneEnd
  rw [if_pos (by rw [h]; exact List.suffix_append X suf.data)]
  show s.data.take (s.data.length - suf.data.length) = X
  rw [h, List.length_append]
  have hx : X.length + suf.data.length - suf.data.length = X.length := by omega
  rw [hx, List.take_left]

theorem goSplit_ne_nil (sep : Char) : ∀ cs : List Char, goSplit sep cs ≠ [] := by
  intro cs
  cases cs with
  | nil => simp [goSplit]
  | cons c rest =>
      simp only [goSplit]
      cases goSplit sep rest with
      | nil => simp
      | cons grp gs =>
          by_cases hc : c = sep <;> simp [hc]

theorem goSplit_no_sep (sep : Char) : ∀ cs : List Char, sep ∉ cs → goSplit sep cs = [cs] := by
  intro cs
  induction cs with
  | nil => intro _; rfl
  | cons c rest ih =>
      intro hnot
      have hc : ¬ c = sep := fun h => hnot (h ▸ List.mem_cons_self _ _)
      have hrest : sep ∉ rest := fun h => hnot (List.mem_cons_of_mem _ h)
      simp only [goSplit, ih hrest]
      rw [if_neg hc]

theorem goSplit_sep_cons (sep : Char) (ys : List Char) :
    goSplit sep (sep :: ys) = [] :: goSplit sep ys := by
  simp only [goSplit]
  cases hys : goSplit sep ys with
  | nil => exact absurd hys (goSplit_ne_nil sep ys)
  | cons grp gs => simp

theorem goSplit_append_sep (sep : Char) :
    ∀ (xs ys : List Char), sep ∉ xs →
      goSplit sep (xs ++ sep :: ys) = xs :: goSplit sep ys := by
  intro xs
  induction xs with
  | nil => intro ys _; exact goSplit_sep_cons sep ys
  | cons c rest ih =>
      intro ys hnot
      have hc : ¬ c = sep := fun h => hnot (h ▸ List.mem_cons_self _ _)
      have hrest : sep ∉ rest := fun h => hnot (List.mem_cons_of_mem _ h)
      rw [List.cons_append]
      simp only [goSplit, ih ys hrest]
      rw [if_neg hc]

theorem goJoin_cons_cons (x y : String) (rest : List String) :
    goJoin "/" (x :: y :: rest) = x ++ "/" ++ goJoin "/" (y :: rest) := rfl

theorem splitPath_goJoin (segs : List String) (hne : segs ≠ [])
    (hfree : ∀ s ∈ segs, ('/' : Char) ∉ s.data) :
    splitPath (goJoin "/" segs) = segs := by
  induction segs with
  | nil => exact absurd rfl hne
  | cons x rest ih =>
      cases rest with
      | nil =>
          simp only [goJoin, splitPath]
          rw [goSplit_no_sep '/' x.data (hfree x (List.mem_cons_self _ _))]
          simp
      | cons y rest' =>
          have hx : ('/' : Char) ∉ x.data := hfree x (List.mem_cons_self _ _)
          have hdata : (goJoin "/" (x :: y :: rest')).data =
              x.data ++ '/' :: (goJoin "/" (y :: rest')).data := by
            rw [goJoin_cons_cons, String.data_append, String.data_append]
            simp
          simp only [splitPath, hdata]
          rw [goSplit_append_sep '/' x.data _ hx]
          have ihr := ih (by simp) (fun s hs => hfree s (List.mem_cons_of_mem _ hs))
          simp only [splitPath] at ihr
          simp [ihr]

/-- Lexical cleaning is the identity on a list of normal segments (no
empty, `"."` or `".."` elements), whatever the stack already holds. -/
theorem cleanSegsAux_normal (segs : List String)
    (hnorm : ∀ s ∈ segs, s ≠ "" ∧ s ≠ "." ∧ s ≠ "..") :
    ∀ stack : List String, cleanSegsAux stack segs = stack.reverse ++ segs := by
  induction segs with
  | nil => intro stack; simp [cleanSegsAux]
  | cons s rest ih =>
      intro stack
      obtain ⟨h1, h2, h3⟩ := hnorm s (List.mem_cons_self _ _)
      have hrest : ∀ x ∈ rest, x ≠ "" ∧ x ≠ "." ∧ x ≠ ".." :=
        fun x hx => hnorm x (List.mem_cons_of_mem _ hx)
      simp only [cleanSegsAux]
      rw [if_neg (by simp [h1, h2]), if_neg h3, ih hrest (s :: stack)]
      simp

/-- Cleaning is the identity on normal segments. -/
theorem cleanSegs_normal (segs : List String)
    (hnorm : ∀ s ∈ segs, s ≠ "" ∧ s ≠ "." ∧ s ≠ "..") :
    cleanSegs segs = segs := by
  unfold cleanSegs
  rw [cleanSegsAux_normal segs hnorm []]
  rfl

/-- Relativizing a path built from non-empty normal slash-free segments
below the base gives back exactly the joined segments: the cleaning pass
inside `filepath.Rel` has nothing to do. -/
theorem relTo_append_clean (base : String) (segs : List String)
    (hne : segs ≠ []) (hfree : ∀ s ∈ segs, ('/' : Char) ∉ s.data)
    (hnorm : ∀ s ∈ segs, s ≠ "" ∧ s ≠ "." ∧ s ≠ "..") :
    relTo base (base ++ "/" ++ goJoin "/" segs) = goJoin "/" segs := by
  unfold relTo
  rw [if_neg ?hne2]
  case hne2 =>
    intro h
    have hd := congrArg String.data h
    rw [String.data_append, String.data_append] at hd
    have hlen := congrArg List.length hd
    simp only [List.length_append, List.length_singleton] at hlen
    omega
  rw [if_pos ?hpre]
  case hpre =>
    show (base.data ++ ['/']) <+: (base ++ "/" ++ goJoin "/" segs).data
    have : (base ++ "/" ++ goJoin "/" segs).data = (base.data ++ ['/']) ++ (goJoin "/" segs).data := by
      simp [String.data_append]
    rw [this]
    exact List.prefix_append _ _
  have hrest : String.mk ((base ++ "/" ++ goJoin "/" segs).data.drop (base.data.length + 1)) =
      goJoin "/" segs := by
    apply string_ext_data
    show (base ++ "/" ++ goJoin "/" segs).data.drop (base.data.length + 1) = (goJoin "/" segs).data
    have : (base ++ "/" ++ goJoin "/" segs).data = (base.data ++ ['/']) ++ (goJoin "/" segs).data := by
      simp [String.data_append]
    rw [this]
    have hlen : (base.data ++ ['/']).length = base.data.length + 1 := by simp
    rw [← hlen, List.drop_left]
  rw [hrest, splitPath_goJoin segs hne hfree, cleanSegs_normal segs hnorm, if_neg hne]

theorem last_slash_unique {zs xs ys : List Char} (hx : '/' :: xs <:+ zs) (hy : '/' :: ys <:+ zs)
    (hxs : ('/' : Char) ∉ xs) (hys : ('/' : Char) ∉ ys) : xs = ys := by
  rcases List.suffix_or_suffix_of_suffix hx hy with h | h
  · rcases List.suffix_cons_iff.mp h with heq | htail
    · exact (List.cons.injEq _ _ _ _ ▸ heq).2
    · exact absurd (htail.subset (List.mem_cons_self _ _)) hys
  · rcases List.suffix_cons_iff.mp h with heq | htail
    · exact ((List.cons.injEq _ _ _ _ ▸ heq).2).symm
    · exact absurd (htail.subset (List.mem_cons_self _ _)) hxs

/-- The join of non-empty `segs = init ++ [l]` ends, at the character
level, with a slash followed by the last segment. -/
theorem goJoin_data_concat (init : List String) (l : String) (hinit : init ≠ []) :
    (goJoin "/" (init ++ [l])).data = (goJoin "/" init).data ++ '/' :: l.data := by
  induction init with
  | nil => exact absurd rfl hinit
  | cons x rest ih =>
      cases rest with
      | nil =>
          show (goJoin "/" [x, l]).data = _
          rw [goJoin_cons_cons]
          simp only [goJoin]
          rw [String.data_append, String.data_append]
          simp
      | cons y rest' =>
          have h1 : (x :: y :: rest') ++ [l] = x :: ((y :: rest') ++ [l]) := by simp
          have h2 : (y :: rest') ++ [l] = y :: (rest' ++ [l]) := by simp
          rw [h1, h2, goJoin_cons_cons x y (rest' ++ [l]), goJoin_cons_cons x y rest']
          rw [String.data_append, String.data_append, String.data_append, String.data_append]
          rw [← h2, ih (by simp)]
          simp

/-! ## Claim theorems -/

/-- C1: for every request path and every set of mock files, the Path
Matcher assigns each structurally matching route template a specificity
score equal to its number of segments minus its number of wildcard
segments, and selects the template with the strictly highest score; among
templates with equal scores the first one encountered in traversal order is
kept (later candidates must score strictly higher to replace it, so every
file before the winner scores strictly lower and every file after it scores
no higher); and of two templates matching the same request with differing
wildcard counts, the one with fewer wildcards is selected in either
traversal order. -/
theorem c1_specificity_selection (base requestPath : String) (files : List String)
    (f0 : String) (s0 : Int) (p0 : List String)
    (hmem : f0 ∈ files)
    (hcand : evalCandidate base (splitPath requestPath) f0 = some (s0, p0)) :
    (∀ f s ps, evalCandidate base (splitPath requestPath) f = some (s, ps) →
        s = ((templateOf base f).length : Int) - (((templateOf base f).count "_" : Nat) : Int)) ∧
    (∃ pre g post s ps,
        files = pre ++ g :: post ∧
        evalCandidate base (splitPath requestPath) g = some (s, ps) ∧
        findBestMockFile base files requestPath = (g, ps) ∧
        (∀ x ∈ pre, candScoreI base (splitPath requestPath) x < s) ∧
        (∀ x ∈ post, candScoreI base (splitPath requestPath) x ≤ s)) ∧
    (∀ f g sf pf sg pg,
        evalCandidate base (splitPath requestPath) f = some (sf, pf) →
        evalCandidate base (splitPath requestPath) g = some (sg, pg) →
        (templateOf base f).count "_" < (templateOf base g).count "_" →
        (findBestMockFile base [f, g] requestPath).fst = f ∧
        (findBestMockFile base [g, f] requestPath).fst = f) := by
  refine ⟨?_, ?_, ?_⟩
  · intro f s ps h
    obtain ⟨hl, -, hs⟩ := evalCandidate_some_elim h
    rw [hs, hl]
  · have hbeat : ∃ f ∈ files, (WalkAcc.mk "" [] (-1)).bestScore < candScoreI base (splitPath requestPath) f := by
      refine ⟨f0, hmem, ?_⟩
      rw [candScoreI_eq_of_some hcand]
      have := score_nonneg_of_some hcand
      simp
      omega
    obtain ⟨pre, g, post, s, ps, hfs, hg, -, hfold, hpre, hpost⟩ :=
      foldl_processPath_first_max files ⟨"", [], -1⟩ (by simp) hbeat
    refine ⟨pre, g, post, s, ps, hfs, hg, ?_, hpre, hpost⟩
    simp only [findBestMockFile]
    rw [hfold]
  · intro f g sf pf sg pg hf hg hcnt
    obtain ⟨hlf, -, hsf⟩ := evalCandidate_some_elim hf
    obtain ⟨hlg, -, hsg⟩ := evalCandidate_some_elim hg
    have hsgf : sg < sf := by
      rw [hsf, hsg]
      omega
    have hf0 : (0 : Int) ≤ sf := score_nonneg_of_some hf
    have hg0 : (0 : Int) ≤ sg := score_nonneg_of_some hg
    constructor
    · simp only [findBestMockFile]
      rw [List.foldl_cons, processPath_of_some hf, if_pos (by simp; omega),
        List.foldl_cons, processPath_of_some hg, if_neg (by simp; omega), List.foldl_nil]
    · simp only [findBestMockFile]
      rw [List.foldl_cons, processPath_of_some hg, if_pos (by simp; omega),
        List.foldl_cons, processPath_of_some hf, if_pos (by simp; omega), List.foldl_nil]

/-- Witness for C1 at a concrete instance: among the files
`mock/users/_.json` (score 1) and `mock/users/created.json` (score 2), the
request `users/created` selects the literal template in either traversal
order, and the winner decomposition names `mock/users/created.json`. -/
theorem c1_specificity_selection_witness :
    (∀ f s ps, evalCandidate "mock" (splitPath "users/created") f = some (s, ps) →
        s = ((templateOf "mock" f).length : Int) - (((templateOf "mock" f).count "_" : Nat) : Int)) ∧
    (∃ pre g post s ps,
        ["mock/users/_.json", "mock/users/created.json"] = pre ++ g :: post ∧
        evalCandidate "mock" (splitPath "users/created") g = some (s, ps) ∧
        findBestMockFile "mock" ["mock/users/_.json", "mock/users/created.json"] "users/created" = (g, ps) ∧
        (∀ x ∈ pre, candScoreI "mock" (splitPath "users/created") x < s) ∧
        (∀ x ∈ post, candScoreI "mock" (splitPath "users/created") x ≤ s)) ∧
    (∀ f g sf pf sg pg,
        evalCandidate "mock" (splitPath "users/created") f = some (sf, pf) →
        evalCandidate "mock" (splitPath "users/created") g = some (sg, pg) →
        (templateOf "mock" f).count "_" < (templateOf "mock" g).count "_" →
        (findBestMockFile "mock" [f, g] "users/created").fst = f ∧
        (findBestMockFile "mock" [g, f] "users/created").fst = f) :=
  c1_specificity_selection "mock" "users/created"
    ["mock/users/_.json", "mock/users/created.json"] "mock/users/_.json" 1 ["created"]
    (by decide) (by decide)

/-- C2: a route template matches a request path if and only if both have
the same number of segments and, at each position, a wildcard segment is
paired with a non-empty request segment (whose value is captured as a
PathParam in template order) and a literal segment is paired with an
exactly equal request segment; a candidate whose wildcard position aligns
with an empty request segment is rejected entirely (the match returns
`none`). -/
theorem c2_matching_rule (tmpl req ps : List String) (c : Nat) :
    matchParts tmpl req = some (ps, c) ↔
      (tmpl.length = req.length ∧
       (∀ pair ∈ tmpl.zip req, (pair.fst = "_" → pair.snd ≠ "") ∧ (pair.fst ≠ "_" → pair.fst = pair.snd)) ∧
       ps = capturedParams tmpl req ∧
       c = tmpl.count "_") :=
  matchParts_characterization tmpl req ps c

/-- C3: bytes that fail to parse as a `MockResponse` descriptor are echoed
verbatim with status 200 and content-type `application/json`, with no
method check, delay or templating (first conjunct).  However, the claim's
"in particular" clause fails: a plain JSON object without the descriptor
keys parses *successfully* (`encoding/json` ignores unknown keys), filling
in a zero-valued descriptor (second conjunct), so the handler answers 204
with an empty body instead of echoing the object (third conjunct) —
contradicting the README's simple mode for object-shaped files. -/
theorem c3_raw_fallback_divergence :
    (∀ (method : String) (params : List String) (data : String),
        serveMockData method params data none =
          ⟨200, [("Content-Type", "application/json")], data, 0⟩) ∧
    unmarshalMock (Json.obj [("users", Json.arr [Json.obj [("id", Json.num 1), ("name", Json.str "Taro")]])]) =
      some ⟨[], 0, 0, [], ""⟩ ∧
    (∀ (method : String) (params : List String) (data : String),
        serveMockData method params data
          (unmarshalMock (Json.obj [("users", Json.arr [Json.obj [("id", Json.num 1), ("name", Json.str "Taro")]])])) =
          ⟨204, [], "", 0⟩) :=
  ⟨fun _ _ _ => rfl, rfl, fun _ _ _ => rfl⟩

/-- C4: the Template Expander replaces every syntactically valid
`\x7bpath.N\x7d` token (N a base-10 integer literal) by `params[N]` exactly
when `N` indexes into the captured parameters, leaves a token with an
out-of-range index verbatim as literal text, resumes scanning after the
token, never signals an error (it is a total function), and returns all
token-free text unchanged — including text with braces that do not form a
valid token (a malformed index leaves `containsToken` false, so such text
falls under the second conjunct). -/
theorem c4_expander (params : List String) (a b : String) (ds : List Char)
    (ha : containsToken a.data = false) (hds : ds ≠ []) (hdig : ∀ c ∈ ds, c.isDigit = true) :
    replacePathParams params (a ++ String.mk (tokenChars ds) ++ b) =
      a ++ (if digitsVal ds < params.length then params.getD (digitsVal ds) ""
            else String.mk (tokenChars ds)) ++ replacePathParams params b ∧
    (containsToken b.data = false → replacePathParams params b = b) := by
  have hmk : ∀ l : List Char, (String.mk l).data = l := fun _ => rfl
  constructor
  · apply String.ext
    simp only [replacePathParams, String.data_append, hmk]
    rw [List.append_assoc]
    rw [replaceChars_append_clean params a.data (tokenChars ds ++ b.data) ha (Or.inr rfl)]
    rw [replaceChars_token params ds b.data hds hdig]
    rw [List.append_assoc]
    congr 1
    by_cases hlt : digitsVal ds < params.length
    · simp [hlt]
    · simp [hlt]
  · intro hb
    apply String.ext
    simp only [replacePathParams, hmk]
    exact replaceChars_id_of_no_token params b.data hb

/-- Witness for C4: the body template from the specification example —
`\x7b"id": "\x7bpath.0\x7d"\x7d` with captured parameters `["42"]` expands
to `\x7b"id": "42"\x7d`, and the out-of-range token `\x7bpath.5\x7d` is
left as literal text. -/
theorem c4_expander_witness :
    replacePathParams ["42"] "\x7b\"id\": \"\x7bpath.0\x7d\"\x7d" = "\x7b\"id\": \"42\"\x7d" ∧
    replacePathParams ["42"] "a \x7bpath.5\x7d b" = "a \x7bpath.5\x7d b" := by
  constructor
  · have h := c4_expander ["42"] "\x7b\"id\": \"" "\"\x7d" ['0'] (by decide) (by decide) (by decide)
    have happ : ("\x7b\"id\": \"" : String) ++ String.mk (tokenChars ['0']) ++ "\"\x7d" =
        "\x7b\"id\": \"\x7bpath.0\x7d\"\x7d" := by decide
    have h1 := h.1
    rw [happ] at h1
    rw [h1, h.2 (by decide)]
    decide
  · have h2 := c4_expander ["42"] "a " " b" ['5'] (by decide) (by decide) (by decide)
    have happ2 : ("a " : String) ++ String.mk (tokenChars ['5']) ++ " b" = "a \x7bpath.5\x7d b" := by decide
    have h21 := h2.1
    rw [happ2] at h21
    rw [h21, h2.2 (by decide)]
    decide

/-- C5: after a successful parse (and a passed method check), the effective
status is the `status` field when non-zero and 200 otherwise; when the body
is empty or literally `null` and the effective status would be 200 it is
overridden to 204 and no body bytes are emitted; in particular an empty
body together with an unset status yields 204 with an empty body. -/
theorem c5_status_defaulting (mock : MockResponse) (method : String) (params : List String) (data : String)
    (hallow : mock.method = [] ∨ methodAllowed mock.method method = true) :
    ((serveMockData method params data (some mock)).status =
       (if (mock.body = "" ∨ mock.body = "null") ∧ (if mock.status = 0 then 200 else mock.status) = 200
        then 204 else (if mock.status = 0 then 200 else mock.status))) ∧
    ((mock.body = "" ∨ mock.body = "null") → (serveMockData method params data (some mock)).body = "") ∧
    (mock.body = "" → mock.status = 0 →
       (serveMockData method params data (some mock)).status = 204 ∧
       (serveMockData method params data (some mock)).body = "") := by
  have hguard : ¬ (mock.method ≠ [] ∧ methodAllowed mock.method method = false) := by
    rcases hallow with h | h <;> simp [h]
  have hserve : serveMockData method params data (some mock) = renderMock params mock := by
    simp only [serveMockData]
    rw [if_neg hguard]
  refine ⟨?_, ?_, ?_⟩
  · rw [hserve]
    simp only [renderMock]
    by_cases hbody : mock.body = "" ∨ mock.body = "null" <;>
      by_cases hst : mock.status = 0 <;>
        simp [hbody, hst]
  · intro hbody
    rw [hserve]
    simp only [renderMock]
    rw [if_pos hbody]
  · intro hb hst
    rw [hserve]
    simp only [renderMock]
    simp [hb, hst]

/-- Witness for C5: a descriptor with empty body and unset status yields
status 204 and an empty body. -/
theorem c5_status_defaulting_witness :
    (serveMockData "GET" [] "" (some ⟨[], 0, 0, [], ""⟩)).status = 204 ∧
    (serveMockData "GET" [] "" (some ⟨[], 0, 0, [], ""⟩)).body = "" :=
  (c5_status_defaulting ⟨[], 0, 0, [], ""⟩ "GET" [] "" (Or.inl rfl)).2.2 rfl rfl

/-- C6: a parsed descriptor with a non-empty method list that excludes the
inbound method yields a 405 response whose body contains the error and the
comma-joined allowed methods, with no delay, no custom headers and no mock
body; a descriptor with an empty method list never enters the rejection
branch and proceeds to normal rendering for every method. -/
theorem c6_method_check (mock : MockResponse) (method : String) (params : List String) (data : String) :
    (mock.method ≠ [] → methodAllowed mock.method method = false →
       serveMockData method params data (some mock) =
         ⟨405, [("Content-Type", "application/json; charset=utf-8")],
          methodNotAllowedBody (goJoin ", " mock.method), 0⟩) ∧
    (mock.method = [] → serveMockData method params data (some mock) = renderMock params mock) := by
  constructor
  · intro h1 h2
    simp only [serveMockData]
    rw [if_pos ⟨h1, h2⟩]
    rfl
  · intro h
    simp only [serveMockData]
    rw [if_neg (by simp [h])]

/-- Witness for C6: a descriptor allowing only `POST` rejects a `GET`
request with status 405 and the allowed list `POST` in the body. -/
theorem c6_method_check_witness :
    serveMockData "GET" [] "" (some ⟨["POST"], 0, 0, [], "\x7b\"a\":1\x7d"⟩) =
      ⟨405, [("Content-Type", "application/json; charset=utf-8")],
       methodNotAllowedBody (goJoin ", " ["POST"]), 0⟩ :=
  (c6_method_check ⟨["POST"], 0, 0, [], "\x7b\"a\":1\x7d"⟩ "GET" [] "").1
    (by decide) (by decide)

/-- C8 counterexample: a traversal error does *not* short-circuit only the
erroring subtree.  With an unreadable directory `mock/sub` visited before
the file `mock/b.json`, the walk aborts entirely (the callback returns the
error and `filepath.WalkDir` stops), so the request `b` finds no match —
even though `mock/b.json` lies outside the erroring subtree and matches, as
the second conjunct shows. -/
theorem c8_walk_abort_counterexample :
    findBestMockFileWalk "mock" false [FsTree.dir "sub" true [], FsTree.file "b.json"] "b" =
      (("", []), true) ∧
    findBestMockFile "mock" ["mock/b.json"] "b" = ("mock/b.json", []) :=
  ⟨by decide, by decide⟩

/-- C8 amended: a traversal error on a directory aborts the remainder of
the entire scan (the error is then logged once, after the walk returns):
whatever entries follow the erroring directory — inside or outside its
subtree — are never considered, and the best match accumulated before the
error is what the function returns. -/
theorem c8_walk_error_aborts (base : String) (req : List String) (pfx : String)
    (pre post : List FsTree) (n : String) (es : List FsTree) (acc : WalkAcc)
    (hpre : (walkEntries base req pfx pre acc).snd = false) :
    walkEntries base req pfx (pre ++ FsTree.dir n true es :: post) acc =
      ((walkEntries base req pfx pre acc).fst, true) := by
  induction pre generalizing acc with
  | nil => simp [walkEntries, walkEntry]
  | cons t pre' ih =>
      rw [List.cons_append]
      cases hstep : walkEntry base req pfx t acc with
      | mk acc2 aborted =>
          cases aborted with
          | true =>
              exfalso
              have habort : (walkEntries base req pfx (t :: pre') acc).snd = true := by
                simp [walkEntries, hstep]
              rw [hpre] at habort
              exact Bool.false_ne_true habort
          | false =>
              have h1 : walkEntries base req pfx (t :: (pre' ++ FsTree.dir n true es :: post)) acc
                  = walkEntries base req pfx (pre' ++ FsTree.dir n true es :: post) acc2 := by
                simp [walkEntries, hstep]
              have h2 : walkEntries base req pfx (t :: pre') acc
                  = walkEntries base req pfx pre' acc2 := by
                simp [walkEntries, hstep]
              rw [h1, h2, ih acc2 (by rw [← h2]; exact hpre)]

/-- Witness for C8 (amended): with the unreadable directory `mock/sub`
standing between `mock/x.json` and `mock/b.json`, the walk returns the
accumulator reached after `mock/x.json` and the abort flag. -/
theorem c8_walk_error_aborts_witness :
    walkEntries "mock" ["b"] "mock"
        ([FsTree.file "x.json"] ++ FsTree.dir "sub" true [] :: [FsTree.file "b.json"])
        ⟨"", [], -1⟩ =
      ((walkEntries "mock" ["b"] "mock" [FsTree.file "x.json"] ⟨"", [], -1⟩).fst, true) :=
  c8_walk_error_aborts "mock" ["b"] "mock" [FsTree.file "x.json"] [FsTree.file "b.json"]
    "sub" [] ⟨"", [], -1⟩ (by decide)

/-- C9 counterexample to "cannot be opened *or read* → 500": a file that
opens but whose read fails (the source discards `io.ReadAll`'s error) is
served from the partial bytes — here invalid JSON `[1,2`, whose descriptor
parse fails (modelled by the constant-`none` parse, as `json.Unmarshal`
errors on truncated input), so the handler answers 200 with the partial
bytes as body rather than 500. -/
theorem c9_read_error_counterexample :
    (handleMockFile "GET" [] (some ("[1,2", true)) (fun _ => none)).status = 200 ∧
    (handleMockFile "GET" [] (some ("[1,2", true)) (fun _ => none)).body = "[1,2" ∧
    handleMockFile "GET" [] (some ("[1,2", true)) (fun _ => none) ≠
      respondJSON 500 "\x7b\"error\":\"Server Error\"\x7d\n" :=
  ⟨rfl, rfl, fun h => absurd (congrArg HttpResponse.status h) (by decide)⟩

/-- C9 amended: only an `os.Open` failure yields the 500 response with the
structured JSON error body and no mock content; a read error after a
successful open is ignored (`data, _ := io.ReadAll(file)`) and the bytes
read before the error are served exactly as if they were the file's full
content. -/
theorem c9_open_failure_500 :
    (∀ (method : String) (params : List String) (parse : String → Option MockResponse),
        handleMockFile method params none parse =
          respondJSON 500 "\x7b\"error\":\"Server Error\"\x7d\n") ∧
    (∀ (method : String) (params : List String) (data : String) (e : Bool)
        (parse : String → Option MockResponse),
        handleMockFile method params (some (data, e)) parse =
          serveMockData method params data (parse data)) :=
  ⟨fun _ _ _ => rfl, fun _ _ _ _ _ => rfl⟩

/-- C7 counterexample: the claim's derivation rule fails on realizable
files.  For a root-level `index.json` the specification's rule (strip
`.json`, drop a trailing `index` segment, split) yields the empty
template, while the code trims the `/index` suffix from the absolute path,
leaving the base directory itself, which `filepath.Rel` relativizes to
`"."` — so the code's template is `["."]`.  And for a file whose basename
is literally `.json`, such as `users/.json`, stripping `.json` leaves a
trailing slash that `filepath.Rel`'s cleaning removes: the code's template
is `["users"]`, where the specification's rule keeps an empty final
segment `["users", ""]`. -/
theorem c7_root_index_counterexample :
    templateOf "mock" ("mock" ++ "/" ++ "index.json") = ["."] ∧
    specTemplateOf "index.json" = [] ∧
    templateOf "mock" ("mock" ++ "/" ++ "index.json") ≠ specTemplateOf "index.json" ∧
    templateOf "mock" ("mock" ++ "/" ++ "users/.json") = ["users"] ∧
    specTemplateOf "users/.json" = ["users", ""] ∧
    templateOf "mock" ("mock" ++ "/" ++ "users/.json") ≠ specTemplateOf "users/.json" :=
  ⟨by decide, by decide, by decide, by decide, by decide, by decide⟩

/-- C7 amended: for every `.json` file under the root whose relative path
consists of normal, slash-free segments (none empty, `"."` or `".."`; in
particular the basename with `.json` stripped is such a name) and which is
not the root-level `index.json`, the code's route template is obtained by
dropping the last segment when it equals `index` and keeping the segments
otherwise, which coincides with the specification's derivation rule applied
to the relative path.  The exceptions diverge through `filepath.Rel`'s
lexical cleaning: the root-level `index.json` yields `["."]`, and a file
whose stripped basename is empty, `"."` or `".."` (such as `users/.json`)
has those elements cleaned away rather than kept as spec-rule segments —
see the counterexample for both. -/
theorem c7_template_derivation (base : String) (segs : List String)
    (hne : segs ≠ []) (hfree : ∀ s ∈ segs, ('/' : Char) ∉ s.data)
    (hnorm : ∀ s ∈ segs, s ≠ "" ∧ s ≠ "." ∧ s ≠ "..")
    (hroot : segs ≠ ["index"]) :
    templateOf base (base ++ "/" ++ goJoin "/" segs ++ ".json") =
      (if segs.getLast? = some "index" then segs.dropLast else segs) ∧
    specTemplateOf (goJoin "/" segs ++ ".json") =
      (if segs.getLast? = some "index" then segs.dropLast else segs) := by
  obtain ⟨init, l, rfl⟩ : ∃ init l, segs = init ++ [l] :=
    ⟨segs.dropLast, segs.getLast hne, (List.dropLast_append_getLast hne).symm⟩
  have hfree_l : ('/' : Char) ∉ l.data :=
    hfree l (List.mem_append_right _ (List.mem_singleton.mpr rfl))
  have hfree_init : ∀ s ∈ init, ('/' : Char) ∉ s.data :=
    fun s hs => hfree s (List.mem_append_left _ hs)
  have hnorm_init : ∀ s ∈ init, s ≠ "" ∧ s ≠ "." ∧ s ≠ ".." :=
    fun s hs => hnorm s (List.mem_append_left _ hs)
  have hslash : ("/" : String).data = ['/'] := rfl
  have hfull : ('/' :: l.data) <:+ (base ++ "/" ++ goJoin "/" (init ++ [l])).data := by
    cases hin : init with
    | nil =>
        show ('/' :: l.data) <:+ (base ++ "/" ++ goJoin "/" [l]).data
        have hJ : goJoin "/" [l] = l := rfl
        rw [hJ, String.data_append, String.data_append, hslash, List.append_assoc]
        exact List.suffix_append _ _
    | cons i0 irest =>
        rw [String.data_append, String.data_append, hslash,
          goJoin_data_concat (i0 :: irest) l (by simp), List.append_assoc]
        have h1 : ('/' :: l.data) <:+ ((goJoin "/" (i0 :: irest)).data ++ '/' :: l.data) :=
          List.suffix_append _ _
        have h2 : ((goJoin "/" (i0 :: irest)).data ++ '/' :: l.data) <:+
            (['/'] ++ ((goJoin "/" (i0 :: irest)).data ++ '/' :: l.data)) :=
          List.suffix_append _ _
        have h3 : (['/'] ++ ((goJoin "/" (i0 :: irest)).data ++ '/' :: l.data)) <:+
            (base.data ++ (['/'] ++ ((goJoin "/" (i0 :: irest)).data ++ '/' :: l.data))) :=
          List.suffix_append _ _
        exact h1.trans (h2.trans h3)
  rw [List.getLast?_concat, List.dropLast_concat]
  have htrimA : trimOneEnd (base ++ "/" ++ goJoin "/" (init ++ [l]) ++ ".json") ".json" =
      base ++ "/" ++ goJoin "/" (init ++ [l]) :=
    string_ext_data (trimOneEnd_of_data_eq (String.data_append _ _))
  have htrimSpec : trimOneEnd (goJoin "/" (init ++ [l]) ++ ".json") ".json" =
      goJoin "/" (init ++ [l]) :=
    string_ext_data (trimOneEnd_of_data_eq (String.data_append _ _))
  have hsplitAll : splitPath (goJoin "/" (init ++ [l])) = init ++ [l] :=
    splitPath_goJoin (init ++ [l]) (by simp) hfree
  constructor
  · simp only [templateOf]
    rw [htrimA]
    by_cases hl : l = "index"
    · subst hl
      have hinit_ne : init ≠ [] := by
        intro h
        rw [h] at hroot
        exact hroot rfl
      have hEnds : strEndsWith (base ++ "/" ++ goJoin "/" (init ++ ["index"])) "/index" = true := by
        simp only [strEndsWith, decide_eq_true_eq]
        exact hfull
      rw [hEnds]
      simp only [if_true]
      have htrimB : trimOneEnd (base ++ "/" ++ goJoin "/" (init ++ ["index"])) "/index" =
          base ++ "/" ++ goJoin "/" init := by
        apply string_ext_data
        apply trimOneEnd_of_data_eq
        rw [String.data_append, String.data_append, hslash,
          goJoin_data_concat init "index" hinit_ne,
          String.data_append, String.data_append, hslash]
        have hidx : ("/index" : String).data = '/' :: ("index" : String).data := rfl
        rw [hidx]
        simp
      rw [htrimB, relTo_append_clean base init hinit_ne hfree_init hnorm_init]
      rw [splitPath_goJoin init hinit_ne hfree_init]
    · have hnot : ¬ (("/index" : String).data <:+ (base ++ "/" ++ goJoin "/" (init ++ [l])).data) := by
        intro hsuf
        have hidx : ("/index" : String).data = '/' :: ("index" : String).data := rfl
        rw [hidx] at hsuf
        have := last_slash_unique hfull hsuf hfree_l (by decide)
        exact hl (string_ext_data this)
      have hEnds : strEndsWith (base ++ "/" ++ goJoin "/" (init ++ [l])) "/index" = false := by
        simp only [strEndsWith, decide_eq_false_iff_not]
        exact hnot
      rw [hEnds]
      simp only [Bool.false_eq_true, if_false]
      rw [relTo_append_clean base (init ++ [l]) (by simp) hfree hnorm, hsplitAll]
      rw [if_neg (by simpa using hl)]
  · simp only [specTemplateOf]
    rw [htrimSpec, hsplitAll]
    rw [List.getLast?_concat, List.dropLast_concat]

/-- Witness for C7 (amended): the file `users/index.json` yields the
template `["users"]`, both for the code and for the specification's rule. -/
theorem c7_template_derivation_witness :
    templateOf "mock" ("mock" ++ "/" ++ goJoin "/" ["users", "index"] ++ ".json") =
      (if (["users", "index"] : List String).getLast? = some "index"
       then (["users", "index"] : List String).dropLast else ["users", "index"]) ∧
    specTemplateOf (goJoin "/" ["users", "index"] ++ ".json") =
      (if (["users", "index"] : List String).getLast? = some "index"
       then (["users", "index"] : List String).dropLast else ["users", "index"]) :=
  c7_template_derivation "mock" ["users", "index"] (by decide) (by decide) (by decide) (by decide)

/-- C10: a zero or negative `delay` field causes no suspension — the slept
time is 0 and the whole response is the one obtained with the delay field
cleared, so the handler proceeds directly to header, status and body
emission. -/
theorem c10_nonpositive_delay (mock : MockResponse) (method : String) (params : List String) (data : String)
    (hdelay : mock.delay ≤ 0) :
    (serveMockData method params data (some mock)).sleptMillis = 0 ∧
    serveMockData method params data (some mock) =
      serveMockData method params data (some { mock with delay := 0 }) := by
  have hslept : (if 0 < mock.delay then mock.delay else 0) = 0 := by
    rw [if_neg (by omega)]
  constructor
  · simp only [serveMockData]
    by_cases hguard : mock.method ≠ [] ∧ methodAllowed mock.method method = false
    · rw [if_pos hguard]
      rfl
    · rw [if_neg hguard]
      simp only [renderMock]
      by_cases hbody : mock.body = "" ∨ mock.body = "null"
      · rw [if_pos hbody]
        simpa using hslept
      · rw [if_neg hbody]
        simpa using hslept
  · simp only [serveMockData]
    by_cases hguard : mock.method ≠ [] ∧ methodAllowed mock.method method = false
    · rw [if_pos hguard, if_pos (by simpa using hguard)]
    · rw [if_neg hguard, if_neg (by simpa using hguard)]
      simp only [renderMock]
      simp [hslept]

/-- Witness for C10: a descriptor with `delay = -100` sleeps 0 milliseconds
and behaves exactly like the same descriptor with no delay. -/
theorem c10_nonpositive_delay_witness :
    (serveMockData "GET" [] "" (some ⟨[], 0, -100, [], "\x7b\x7d"⟩)).sleptMillis = 0 ∧
    serveMockData "GET" [] "" (some ⟨[], 0, -100, [], "\x7b\x7d"⟩) =
      serveMockData "GET" [] "" (some ⟨[], 0, 0, [], "\x7b\x7d"⟩) :=
  c10_nonpositive_delay ⟨[], 0, -100, [], "\x7b\x7d"⟩ "GET" [] "" (by decide)

end Apimock
